import Mathlib

/-!
Verification of the dynast preprocessing core (conversion counting, SNP
detection, deduplication and strand complementation) against a shallow
embedding of `dynast/preprocessing/conversion.py` and
`dynast/preprocessing/snp.py`.

Conventions of the embedding:
* a parsed conversion record is a Lean structure whose fields carry the
  values of the named groups of `CONVERSIONS_PARSER` after the `int(...)`
  coercions the code applies to them;
* Python dictionaries are association lists; `dict.get(k, d)` is
  `lookup` followed by `getD`; a failing `dict[k]` access or a failed
  `CONVERSION_IDX[...]` lookup is an `Except.error` carrying the Python
  exception name;
* `pandas.sort_values` is modelled by `List.insertionSort` on the same
  sort key (a stable sorting algorithm; the properties proved below do
  not depend on how full ties are broken);
* string comparison is code-point lexicographic order, as in Python.
-/

/-! ## Code-point lexicographic string order (Python string comparison) -/

def charsLe : List Char → List Char → Bool
  | [], _ => true
  | _ :: _, [] => false
  | a :: as, b :: bs => a.toNat.blt b.toNat || (a.toNat.beq b.toNat && charsLe as bs)

def strLe (a b : String) : Bool := charsLe a.data b.data

theorem charsLe_trans : ∀ a b c, charsLe a b = true → charsLe b c = true → charsLe a c = true := by
  intro a
  induction a with
  | nil => intro b c _ _; rfl
  | cons x xs ih =>
    intro b c hab hbc
    cases b with
    | nil => simp [charsLe] at hab
    | cons y ys =>
      cases c with
      | nil => simp [charsLe] at hbc
      | cons z zs =>
        simp only [charsLe, Bool.or_eq_true, Bool.and_eq_true, Nat.blt_eq, Nat.beq_eq] at *
        rcases hab with h1 | ⟨h1, h1'⟩ <;> rcases hbc with h2 | ⟨h2, h2'⟩
        · exact Or.inl (Nat.lt_trans h1 h2)
        · exact Or.inl (h2 ▸ h1)
        · exact Or.inl (h1 ▸ h2)
        · exact Or.inr ⟨h1.trans h2, ih ys zs h1' h2'⟩

theorem charsLe_total : ∀ a b, charsLe a b = true ∨ charsLe b a = true := by
  intro a
  induction a with
  | nil => intro b; exact Or.inl rfl
  | cons x xs ih =>
    intro b
    cases b with
    | nil => exact Or.inr rfl
    | cons y ys =>
      simp only [charsLe, Bool.or_eq_true, Bool.and_eq_true, Nat.blt_eq, Nat.beq_eq]
      rcases Nat.lt_trichotomy x.toNat y.toNat with h | h | h
      · exact Or.inl (Or.inl h)
      · rcases ih ys with h' | h'
        · exact Or.inl (Or.inr ⟨h, h'⟩)
        · exact Or.inr (Or.inr ⟨h.symm, h'⟩)
      · exact Or.inr (Or.inl h)

theorem strLe_trans (a b c : String) (h1 : strLe a b = true) (h2 : strLe b c = true) :
    strLe a c = true :=
  charsLe_trans a.data b.data c.data h1 h2

theorem strLe_total (a b : String) : strLe a b = true ∨ strLe b a = true :=
  charsLe_total a.data b.data

/-- Propositional form of `strLe`, used as the sort relation for columns
sorted on a string key. -/
def SLe (a b : String) : Prop := strLe a b = true

instance : DecidableRel SLe := fun _a _b => inferInstanceAs (Decidable (_ = true))

instance : IsTrans String SLe := ⟨strLe_trans⟩

instance : IsTotal String SLe := ⟨strLe_total⟩

/-! ## conversion.py: column tables

`CONVERSION_IDX` maps the 12 ordered pairs of distinct bases to positions
0-11 of a count vector; `BASE_IDX` maps the 4 bases to positions 12-15.
`CONVERSION_COLUMNS` and `BASE_COLUMNS` are the sorted column names
(`sorted(...)` modelled by `insertionSort` on code-point order). -/

def CONVERSION_IDX : List ((String × String) × Nat) :=
  [(("A", "C"), 0), (("A", "G"), 1), (("A", "T"), 2),
   (("C", "A"), 3), (("C", "G"), 4), (("C", "T"), 5),
   (("G", "A"), 6), (("G", "C"), 7), (("G", "T"), 8),
   (("T", "A"), 9), (("T", "C"), 10), (("T", "G"), 11)]

def BASE_IDX : List (String × Nat) :=
  [("A", 12), ("C", 13), ("G", 14), ("T", 15)]

def CONVERSION_COLUMNS : List String :=
  List.insertionSort SLe (CONVERSION_IDX.map (fun p => p.1.1 ++ p.1.2))

def BASE_COLUMNS : List String :=
  List.insertionSort SLe (BASE_IDX.map Prod.fst)

def COLUMNS : List String := CONVERSION_COLUMNS ++ BASE_COLUMNS

/-! ## conversion.py: records and the SNP table -/

/-- A conversion record as parsed by `CONVERSIONS_PARSER`, with the
`int(...)` coercions the consuming code applies to `genome_i`, `quality`
and the four base-content fields. -/
structure ConvRecord where
  read_id : String
  barcode : String
  umi : String
  GX : String
  contig : String
  genome_i : Nat
  original : String
  converted : String
  quality : Nat
  A : Nat
  C : Nat
  G : Nat
  T : Nat
  velocity : String
  transcriptome : String
  deriving DecidableEq

/-- The nested dictionary produced by `snp.read_snps`: conversion type →
contig → set of genomic positions (each level an association list). -/
def SnpTable : Type := List (String × List (String × List Nat))

/-- Python `int == str` comparison: always `False` (no coercion). -/
def pyIntEqStr (_i : Nat) (_s : String) : Bool := false

/-- Python `i in d` for an `int` `i` and a dict `d` whose keys are strings:
membership tests `i` against every key with `int == str`. -/
def pyIntInStrKeyedDict (i : Nat) (d : List (String × List Nat)) : Bool :=
  d.any (fun kv => pyIntEqStr i kv.1)

/-- The helper `count_conversions_part.is_snp`: `if not snps: return False` followed by
`int(g['genome_i']) in snps.get(g['contig'], set())`.  Note the lookup of a
*contig* name among the table's top-level keys, which for a table produced
by `read_snps` are conversion-type strings. -/
def is_snp (snps : Option SnpTable) (contig : String) (genome_i : Nat) : Bool :=
  match snps with
  | none => false
  | some t =>
    if t.isEmpty then false
    else
      match t.lookup contig with
      | none => false
      | some inner => pyIntInStrKeyedDict genome_i inner

/-! ## conversion.py: count_conversions_part -/

/-- One output line of a counting worker, in the unified count schema
`barcode,umi,GX,<16 counts>,velocity,transcriptome`. -/
structure CsvRow where
  barcode : String
  umi : String
  GX : String
  counts : List Nat
  velocity : String
  transcriptome : String
  deriving DecidableEq

def mkRow (r : ConvRecord) (counts : List Nat) : CsvRow :=
  ⟨r.barcode, r.umi, r.GX, counts, r.velocity, r.transcriptome⟩

/-- The quality/SNP filter guarding the conversion-count increment:
`int(groups['quality']) > quality and not is_snp(groups)`. -/
def qualifies (snps : Option SnpTable) (quality : Nat) (r : ConvRecord) : Bool :=
  quality < r.quality && !(is_snp snps r.contig r.genome_i)

/-- The increment `counts[CONVERSION_IDX[(original, converted)]] += 1`; a pair outside
the 12 listed ones raises `KeyError`. -/
def addConversion (snps : Option SnpTable) (quality : Nat) (counts : List Nat)
    (r : ConvRecord) : Except String (List Nat) :=
  if qualifies snps quality r then
    match CONVERSION_IDX.lookup (r.original, r.converted) with
    | some i => .ok (counts.set i (counts.getD i 0 + 1))
    | none => .error "KeyError: conversion pair"
  else .ok counts

/-- The `count_base` branch: `counts[j] = int(groups[base])` for the four
entries of `BASE_IDX`. -/
def setBases (counts : List Nat) (r : ConvRecord) : List Nat :=
  (((counts.set 12 r.A).set 13 r.C).set 14 r.G).set 15 r.T

/-- The record loop of `count_conversions_part` after the first record of
the current read group: `rid` is the accumulating `read_id`, `lastRec` the
previously parsed record (`prev_groups`), `counts` the in-progress count
vector.  A changed `read_id` flushes the in-progress row; the end of input
flushes the final row. -/
def goPart (snps : Option SnpTable) (quality : Nat) :
    List ConvRecord → String → ConvRecord → List Nat → Except String (List CsvRow)
  | [], _, lastRec, counts => .ok [mkRow lastRec counts]
  | r :: rs, rid, lastRec, counts =>
    if r.read_id = rid then do
      let counts' ← addConversion snps quality counts r
      goPart snps quality rs rid r counts'
    else do
      let c0 ← addConversion snps quality (List.replicate 16 0) r
      let rest ← goPart snps quality rs r.read_id r (setBases c0 r)
      .ok (mkRow lastRec counts :: rest)

/-- The worker `count_conversions_part` restricted to one partition's parsed records:
the streaming loop of the worker (lines 258-297 of conversion.py), with the
progress-counter bookkeeping and file handles abstracted away. -/
def count_conversions_part (snps : Option SnpTable) (quality : Nat) :
    List ConvRecord → Except String (List CsvRow)
  | [] => .ok []
  | r :: rs => do
    let c0 ← addConversion snps quality (List.replicate 16 0) r
    goPart snps quality rs r.read_id r (setBases c0 r)

/-! ### Contiguous read-id groups and the per-group closed form -/

/-- Splits a record list into its maximal contiguous runs of equal
`read_id` (the read groups a counting worker flushes one row for). -/
def chunksAux (rid : String) (cur : List ConvRecord) :
    List ConvRecord → List (List ConvRecord)
  | [] => [cur]
  | r :: rs =>
    if r.read_id = rid then chunksAux rid (cur ++ [r]) rs
    else cur :: chunksAux r.read_id [r] rs

def chunks : List ConvRecord → List (List ConvRecord)
  | [] => []
  | r :: rs => chunksAux r.read_id [r] rs

/-- Total variant of the conversion-count increment (identical to
`addConversion` whenever the record's base pair is a valid key). -/
def addConvTotal (snps : Option SnpTable) (quality : Nat) (counts : List Nat)
    (r : ConvRecord) : List Nat :=
  if qualifies snps quality r then
    match CONVERSION_IDX.lookup (r.original, r.converted) with
    | some i => counts.set i (counts.getD i 0 + 1)
    | none => counts
  else counts

/-- The count vector accumulated over one read group whose first record is
`r0` and remaining records are `s`. -/
def groupCounts (snps : Option SnpTable) (quality : Nat) (r0 : ConvRecord)
    (s : List ConvRecord) : List Nat :=
  s.foldl (addConvTotal snps quality)
    (setBases (addConvTotal snps quality (List.replicate 16 0) r0) r0)

/-- The row flushed for one read group: identity fields of the group's last
record, counts accumulated over the whole group. -/
def flushGroup (snps : Option SnpTable) (quality : Nat) : List ConvRecord → CsvRow
  | [] => ⟨"", "", "", [], "", ""⟩
  | r0 :: s => mkRow (s.getLastD r0) (groupCounts snps quality r0 s)

theorem addConversion_eq_total (snps : Option SnpTable) (quality : Nat)
    (counts : List Nat) (r : ConvRecord)
    (h : qualifies snps quality r = true → (CONVERSION_IDX.lookup (r.original, r.converted)).isSome) :
    addConversion snps quality counts r = .ok (addConvTotal snps quality counts r) := by
  unfold addConversion addConvTotal
  by_cases hq : qualifies snps quality r = true
  · rw [if_pos hq, if_pos hq]
    have := h hq
    cases hl : CONVERSION_IDX.lookup (r.original, r.converted) with
    | none => rw [hl] at this; simp at this
    | some i => rfl
  · rw [if_neg hq, if_neg hq]

theorem goPart_chunksAux (snps : Option SnpTable) (quality : Nat) :
    ∀ (rs : List ConvRecord) (rid : String) (r0 : ConvRecord) (s : List ConvRecord),
    (∀ r ∈ rs, qualifies snps quality r = true →
      (CONVERSION_IDX.lookup (r.original, r.converted)).isSome) →
    goPart snps quality rs rid (s.getLastD r0) (groupCounts snps quality r0 s)
      = .ok ((chunksAux rid (r0 :: s) rs).map (flushGroup snps quality)) := by
  intro rs
  induction rs with
  | nil =>
    intro rid r0 s _
    simp [goPart, chunksAux, flushGroup]
  | cons r rs ih =>
    intro rid r0 s hv
    have hr := hv r (by simp)
    have hrest : ∀ x ∈ rs, qualifies snps quality x = true →
        (CONVERSION_IDX.lookup (x.original, x.converted)).isSome := by
      intro x hx
      exact hv x (by simp [hx])
    have hc : addConvTotal snps quality (groupCounts snps quality r0 s) r
        = groupCounts snps quality r0 (s ++ [r]) := by
      simp [groupCounts, List.foldl_append]
    by_cases hid : r.read_id = rid
    · rw [goPart, if_pos hid, addConversion_eq_total snps quality _ r hr]
      show goPart snps quality rs rid r
          (addConvTotal snps quality (groupCounts snps quality r0 s) r) = _
      have hl : (s ++ [r]).getLastD r0 = r := by
        simp [List.getLastD_concat]
      have hih := ih rid r0 (s ++ [r]) hrest
      rw [hl] at hih
      rw [hc, hih]
      show _ = Except.ok ((chunksAux rid (r0 :: s) (r :: rs)).map (flushGroup snps quality))
      rw [chunksAux, if_pos hid]
      simp
    · rw [goPart, if_neg hid, addConversion_eq_total snps quality _ r hr]
      show (do
          let rest ← goPart snps quality rs r.read_id r
            (setBases (addConvTotal snps quality (List.replicate 16 0) r) r)
          Except.ok (mkRow (s.getLastD r0) (groupCounts snps quality r0 s) :: rest))
        = _
      have h0 : setBases (addConvTotal snps quality (List.replicate 16 0) r) r
          = groupCounts snps quality r [] := by
        simp [groupCounts]
      have h1 : goPart snps quality rs r.read_id r (groupCounts snps quality r [])
          = .ok ((chunksAux r.read_id [r] rs).map (flushGroup snps quality)) :=
        ih r.read_id r [] hrest
      rw [h0, h1]
      show Except.ok (mkRow (s.getLastD r0) (groupCounts snps quality r0 s)
          :: (chunksAux r.read_id [r] rs).map (flushGroup snps quality)) = _
      rw [chunksAux, if_neg hid]
      simp [flushGroup]

theorem count_conversions_part_eq_chunks (snps : Option SnpTable) (quality : Nat)
    (records : List ConvRecord)
    (hv : ∀ r ∈ records, qualifies snps quality r = true →
      (CONVERSION_IDX.lookup (r.original, r.converted)).isSome) :
    count_conversions_part snps quality records
      = .ok ((chunks records).map (flushGroup snps quality)) := by
  cases records with
  | nil => rfl
  | cons r rs =>
    have hr := hv r (by simp)
    have hrest : ∀ x ∈ rs, qualifies snps quality x = true →
        (CONVERSION_IDX.lookup (x.original, x.converted)).isSome := by
      intro x hx
      exact hv x (by simp [hx])
    rw [count_conversions_part, addConversion_eq_total snps quality _ r hr]
    show goPart snps quality rs r.read_id r
        (setBases (addConvTotal snps quality (List.replicate 16 0) r) r) = _
    have h0 : setBases (addConvTotal snps quality (List.replicate 16 0) r) r
        = groupCounts snps quality r [] := by
      simp [groupCounts]
    rw [h0]
    exact goPart_chunksAux snps quality rs r.read_id r [] hrest

/-! ### Structure of the contiguous read groups -/

theorem chunksAux_flatten : ∀ (rs : List ConvRecord) (rid : String) (cur : List ConvRecord),
    (chunksAux rid cur rs).flatten = cur ++ rs := by
  intro rs
  induction rs with
  | nil => intro rid cur; simp [chunksAux]
  | cons r rs ih =>
    intro rid cur
    rw [chunksAux]
    by_cases hid : r.read_id = rid
    · rw [if_pos hid, ih]
      simp
    · rw [if_neg hid]
      simp [ih]

theorem chunks_flatten (records : List ConvRecord) : (chunks records).flatten = records := by
  cases records with
  | nil => rfl
  | cons r rs =>
    rw [chunks, chunksAux_flatten]
    rfl

theorem chunksAux_ne_nil : ∀ (rs : List ConvRecord) (rid : String) (cur : List ConvRecord),
    cur ≠ [] → ∀ g ∈ chunksAux rid cur rs, g ≠ [] := by
  intro rs
  induction rs with
  | nil =>
    intro rid cur hcur g hg
    simp [chunksAux] at hg
    exact hg ▸ hcur
  | cons r rs ih =>
    intro rid cur hcur g hg
    rw [chunksAux] at hg
    by_cases hid : r.read_id = rid
    · rw [if_pos hid] at hg
      exact ih rid (cur ++ [r]) (by simp) g hg
    · rw [if_neg hid] at hg
      rcases List.mem_cons.mp hg with h | h
      · exact h ▸ hcur
      · exact ih r.read_id [r] (by simp) g h

theorem chunksAux_same_read_id :
    ∀ (rs : List ConvRecord) (rid : String) (cur : List ConvRecord),
    (∀ x ∈ cur, x.read_id = rid) →
    ∀ g ∈ chunksAux rid cur rs, ∀ x ∈ g, ∀ y ∈ g, x.read_id = y.read_id := by
  intro rs
  induction rs with
  | nil =>
    intro rid cur hcur g hg x hx y hy
    simp [chunksAux] at hg
    subst hg
    rw [hcur x hx, hcur y hy]
  | cons r rs ih =>
    intro rid cur hcur g hg x hx y hy
    rw [chunksAux] at hg
    by_cases hid : r.read_id = rid
    · rw [if_pos hid] at hg
      refine ih rid (cur ++ [r]) ?_ g hg x hx y hy
      intro z hz
      rcases List.mem_append.mp hz with h | h
      · exact hcur z h
      · simp at h
        rw [h, hid]
    · rw [if_neg hid] at hg
      rcases List.mem_cons.mp hg with h | h
      · subst h
        rw [hcur x hx, hcur y hy]
      · refine ih r.read_id [r] ?_ g h x hx y hy
        intro z hz
        simp at hz
        rw [hz]

theorem chunksAux_head_mem :
    ∀ (rs : List ConvRecord) (rid : String) (cur h : List ConvRecord),
    (chunksAux rid cur rs).head? = some h → ∀ y ∈ h, y ∈ cur ∨ y.read_id = rid := by
  intro rs
  induction rs with
  | nil =>
    intro rid cur h hh y hy
    simp [chunksAux] at hh
    exact Or.inl (hh ▸ hy)
  | cons r rs ih =>
    intro rid cur h hh y hy
    rw [chunksAux] at hh
    by_cases hid : r.read_id = rid
    · rw [if_pos hid] at hh
      rcases ih rid (cur ++ [r]) h hh y hy with hc | hc
      · rcases List.mem_append.mp hc with h1 | h1
        · exact Or.inl h1
        · simp at h1
          exact Or.inr (h1 ▸ hid)
      · exact Or.inr hc
    · rw [if_neg hid] at hh
      simp at hh
      exact Or.inl (hh ▸ hy)

theorem chunksAux_chain :
    ∀ (rs : List ConvRecord) (rid : String) (cur : List ConvRecord),
    (∀ x ∈ cur, x.read_id = rid) →
    List.Chain' (fun g h => ∀ x ∈ g, ∀ y ∈ h, x.read_id ≠ y.read_id) (chunksAux rid cur rs) := by
  intro rs
  induction rs with
  | nil => intro rid cur _; simp [chunksAux]
  | cons r rs ih =>
    intro rid cur hcur
    rw [chunksAux]
    by_cases hid : r.read_id = rid
    · rw [if_pos hid]
      refine ih rid (cur ++ [r]) ?_
      intro z hz
      rcases List.mem_append.mp hz with h | h
      · exact hcur z h
      · simp at h
        rw [h, hid]
    · rw [if_neg hid]
      refine List.chain'_cons'.mpr ⟨?_, ih r.read_id [r] (by simp)⟩
      intro h hh x hx y hy
      have hyr : y ∈ ([r] : List ConvRecord) ∨ y.read_id = r.read_id :=
        chunksAux_head_mem rs r.read_id [r] h hh y hy
      have hyrid : y.read_id = r.read_id := by
        rcases hyr with h1 | h1
        · simp at h1
          rw [h1]
        · exact h1
      rw [hcur x hx, hyrid]
      intro hcontra
      exact hid hcontra.symm

theorem chunks_ne_nil (records : List ConvRecord) : ∀ g ∈ chunks records, g ≠ [] := by
  cases records with
  | nil => intro g hg; simp [chunks] at hg
  | cons r rs =>
    intro g hg
    exact chunksAux_ne_nil rs r.read_id [r] (by simp) g hg

theorem chunks_same_read_id (records : List ConvRecord) :
    ∀ g ∈ chunks records, ∀ x ∈ g, ∀ y ∈ g, x.read_id = y.read_id := by
  cases records with
  | nil => intro g hg; simp [chunks] at hg
  | cons r rs =>
    intro g hg
    exact chunksAux_same_read_id rs r.read_id [r] (by simp) g hg

theorem chunks_chain (records : List ConvRecord) :
    List.Chain' (fun g h => ∀ x ∈ g, ∀ y ∈ h, x.read_id ≠ y.read_id) (chunks records) := by
  cases records with
  | nil => simp [chunks]
  | cons r rs =>
    exact chunksAux_chain rs r.read_id [r] (by simp)

theorem chunks_mem_of_mem (records : List ConvRecord) (g : List ConvRecord)
    (hg : g ∈ chunks records) (x : ConvRecord) (hx : x ∈ g) : x ∈ records := by
  have : x ∈ (chunks records).flatten := List.mem_flatten.mpr ⟨g, hg, hx⟩
  rwa [chunks_flatten records] at this

/-- C9.  For every partition, `count_conversions_part` writes exactly one
output row per maximal contiguous `read_id` group: the result is the map of
the per-group flush over the contiguous grouping of the records (so an
empty partition yields no rows), the grouping exactly partitions the input
into nonempty runs of a single `read_id` with adjacent runs differing in
`read_id`, and — when records of one read share their identity fields, as
the record-grammar invariant guarantees — each flushed row carries the
identity fields (`barcode`, `umi`, `GX`, `velocity`, `transcriptome`) of
its group's records. -/
theorem C9_one_count_row_per_contiguous_read_group
    (snps : Option SnpTable) (quality : Nat) (records : List ConvRecord)
    (hv : ∀ r ∈ records, qualifies snps quality r = true →
      (CONVERSION_IDX.lookup (r.original, r.converted)).isSome) :
    count_conversions_part snps quality records
        = .ok ((chunks records).map (flushGroup snps quality))
    ∧ (chunks records).flatten = records
    ∧ (∀ g ∈ chunks records, g ≠ [] ∧ ∀ x ∈ g, ∀ y ∈ g, x.read_id = y.read_id)
    ∧ List.Chain' (fun g h => ∀ x ∈ g, ∀ y ∈ h, x.read_id ≠ y.read_id) (chunks records)
    ∧ (records = [] → count_conversions_part snps quality records = .ok [])
    ∧ ((∀ a ∈ records, ∀ b ∈ records, a.read_id = b.read_id →
          a.barcode = b.barcode ∧ a.umi = b.umi ∧ a.GX = b.GX ∧
          a.velocity = b.velocity ∧ a.transcriptome = b.transcriptome) →
        ∀ g ∈ chunks records, ∀ x ∈ g,
          (flushGroup snps quality g).barcode = x.barcode ∧
          (flushGroup snps quality g).umi = x.umi ∧
          (flushGroup snps quality g).GX = x.GX ∧
          (flushGroup snps quality g).velocity = x.velocity ∧
          (flushGroup snps quality g).transcriptome = x.transcriptome) := by
  refine ⟨count_conversions_part_eq_chunks snps quality records hv,
         chunks_flatten records,
         fun g hg => ⟨chunks_ne_nil records g hg, chunks_same_read_id records g hg⟩,
         chunks_chain records,
         fun h => by subst h; rfl,
         ?_⟩
  intro hinv g hg x hx
  obtain ⟨r0, s, rfl⟩ := List.exists_cons_of_ne_nil (chunks_ne_nil records _ hg)
  have hlast_mem : s.getLastD r0 ∈ r0 :: s := List.getLastD_mem_cons s r0
  have hlast_rec : s.getLastD r0 ∈ records := chunks_mem_of_mem records _ hg _ hlast_mem
  have hx_rec : x ∈ records := chunks_mem_of_mem records _ hg x hx
  have hsame : (s.getLastD r0).read_id = x.read_id :=
    chunks_same_read_id records _ hg _ hlast_mem x hx
  have hfields := hinv _ hlast_rec x hx_rec hsame
  exact ⟨hfields.1, hfields.2.1, hfields.2.2.1, hfields.2.2.2.1, hfields.2.2.2.2⟩

/-- Witness for C9 at a concrete three-record, two-read partition. -/
theorem C9_one_count_row_per_contiguous_read_group_witness :
    (∀ r ∈ [ConvRecord.mk "r1" "b" "u" "g" "1" 100 "A" "C" 30 10 20 30 40 "spliced" "True",
            ConvRecord.mk "r1" "b" "u" "g" "1" 101 "T" "C" 35 10 20 30 40 "spliced" "True",
            ConvRecord.mk "r2" "b2" "u2" "g2" "1" 102 "G" "A" 33 5 6 7 8 "unspliced" "False"],
        qualifies none 27 r = true →
        (CONVERSION_IDX.lookup (r.original, r.converted)).isSome)
    ∧ count_conversions_part none 27
        [ConvRecord.mk "r1" "b" "u" "g" "1" 100 "A" "C" 30 10 20 30 40 "spliced" "True",
         ConvRecord.mk "r1" "b" "u" "g" "1" 101 "T" "C" 35 10 20 30 40 "spliced" "True",
         ConvRecord.mk "r2" "b2" "u2" "g2" "1" 102 "G" "A" 33 5 6 7 8 "unspliced" "False"]
        = .ok ((chunks
            [ConvRecord.mk "r1" "b" "u" "g" "1" 100 "A" "C" 30 10 20 30 40 "spliced" "True",
             ConvRecord.mk "r1" "b" "u" "g" "1" 101 "T" "C" 35 10 20 30 40 "spliced" "True",
             ConvRecord.mk "r2" "b2" "u2" "g2" "1" 102 "G" "A" 33 5 6 7 8 "unspliced" "False"]).map
            (flushGroup none 27)) :=
  ⟨by decide,
   (C9_one_count_row_per_contiguous_read_group none 27 _ (by decide)).1⟩

/-! ### C10: totality of the counting worker -/

theorem goPart_error (snps : Option SnpTable) (quality : Nat) :
    ∀ (rs : List ConvRecord) (rid : String) (lastRec : ConvRecord) (counts : List Nat),
    (∃ r ∈ rs, qualifies snps quality r = true ∧
      CONVERSION_IDX.lookup (r.original, r.converted) = none) →
    ∃ e, goPart snps quality rs rid lastRec counts = .error e := by
  intro rs
  induction rs with
  | nil =>
    intro rid lastRec counts hbad
    simp at hbad
  | cons r rs ih =>
    intro rid lastRec counts hbad
    by_cases hid : r.read_id = rid
    · cases haddc : addConversion snps quality counts r with
      | error e =>
        refine ⟨e, ?_⟩
        rw [goPart, if_pos hid, haddc]
        rfl
      | ok c' =>
        rcases hbad with ⟨b, hb, hq, hnone⟩
        rcases List.mem_cons.mp hb with rfl | hb'
        · rw [addConversion, if_pos hq, hnone] at haddc
          cases haddc
        · obtain ⟨e, he⟩ := ih rid b counts ⟨b, hb', hq, hnone⟩
          obtain ⟨e', he'⟩ := ih rid r c' ⟨b, hb', hq, hnone⟩
          refine ⟨e', ?_⟩
          rw [goPart, if_pos hid, haddc]
          exact he'
    · cases haddc : addConversion snps quality (List.replicate 16 0) r with
      | error e =>
        refine ⟨e, ?_⟩
        rw [goPart, if_neg hid, haddc]
        rfl
      | ok c0 =>
        rcases hbad with ⟨b, hb, hq, hnone⟩
        rcases List.mem_cons.mp hb with rfl | hb'
        · rw [addConversion, if_pos hq, hnone] at haddc
          cases haddc
        · obtain ⟨e, he⟩ := ih r.read_id r (setBases c0 r) ⟨b, hb', hq, hnone⟩
          refine ⟨e, ?_⟩
          rw [goPart, if_neg hid, haddc]
          show (do
            let rest ← goPart snps quality rs r.read_id r (setBases c0 r)
            Except.ok (mkRow lastRec counts :: rest)) = Except.error e
          rw [he]
          rfl

/-- C10.  `count_conversions_part` is total exactly under the precondition
that every record passing the quality/SNP filter has a base pair among the
12 keys of `CONVERSION_IDX`: any partition containing an above-threshold,
non-masked record whose `(original, converted)` pair is missing from
`CONVERSION_IDX` (e.g. `original = converted`) makes the worker fail with
an unhandled `KeyError` instead of ignoring that record, while partitions
satisfying the precondition always produce a row list. -/
theorem C10_invalid_conversion_pair_raises_key_error
    (snps : Option SnpTable) (quality : Nat) (records : List ConvRecord) :
    ((∃ r ∈ records, qualifies snps quality r = true ∧
        CONVERSION_IDX.lookup (r.original, r.converted) = none) →
      ∃ e, count_conversions_part snps quality records = .error e)
    ∧ ((∀ r ∈ records, qualifies snps quality r = true →
        (CONVERSION_IDX.lookup (r.original, r.converted)).isSome) →
      ∃ rows, count_conversions_part snps quality records = .ok rows) := by
  constructor
  · intro hbad
    cases records with
    | nil => simp at hbad
    | cons r rs =>
      cases haddc : addConversion snps quality (List.replicate 16 0) r with
      | error e =>
        refine ⟨e, ?_⟩
        rw [count_conversions_part, haddc]
        rfl
      | ok c0 =>
        rcases hbad with ⟨b, hb, hq, hnone⟩
        rcases List.mem_cons.mp hb with rfl | hb'
        · rw [addConversion, if_pos hq, hnone] at haddc
          cases haddc
        · obtain ⟨e, he⟩ := goPart_error snps quality rs r.read_id r (setBases c0 r)
            ⟨b, hb', hq, hnone⟩
          refine ⟨e, ?_⟩
          rw [count_conversions_part, haddc]
          exact he
  · intro hv
    exact ⟨_, count_conversions_part_eq_chunks snps quality records hv⟩

/-- Witness for C10: a record with `original = converted = "A"` above the
quality threshold makes the worker fail, and a well-formed record does
not. -/
theorem C10_invalid_conversion_pair_raises_key_error_witness :
    (∃ e, count_conversions_part none 27
        [ConvRecord.mk "r1" "b" "u" "g" "1" 100 "A" "A" 30 10 20 30 40 "spliced" "True"]
        = .error e)
    ∧ (∃ rows, count_conversions_part none 27
        [ConvRecord.mk "r1" "b" "u" "g" "1" 100 "A" "C" 30 10 20 30 40 "spliced" "True"]
        = .ok rows) :=
  ⟨(C10_invalid_conversion_pair_raises_key_error none 27 _).1 (by decide),
   (C10_invalid_conversion_pair_raises_key_error none 27 _).2 (by decide)⟩

/-! ### C1: SNP masking with a `read_snps`-shaped table -/

/-- A SNP Table as `read_snps` builds it, flagging position 10 of contig
`"1"` for conversion type A→C only. -/
def snpsC1 : SnpTable := [("AC", [("1", [10])])]

/-- The A→C conversion record whose `(contig, genome_i)` is flagged for
its own conversion type in `snpsC1`. -/
def recC1 : ConvRecord :=
  ⟨"r1", "b", "u", "g", "1", 10, "A", "C", 30, 2, 3, 4, 5, "spliced", "True"⟩

/-- C1 (refuting evaluation).  With the SNP Table produced by `read_snps`
(conversion type → contig → positions), `is_snp` looks the record's
*contig* up among the table's conversion-type keys and tests an `int`
against string keys, so the flag is never seen: the record flagged for its
own conversion type A→C at quality 30 > 27 is still counted, giving an
A→C count of 1 where the claim requires 0. -/
theorem C1_snp_flag_for_own_conversion_type_is_ignored :
    is_snp (some snpsC1) "1" 10 = false
    ∧ count_conversions_part (some snpsC1) 27 [recC1]
        = .ok [⟨"b", "u", "g", [1, 0, 0, 0, 0, 0, 0, 0, 0, 0, 0, 0, 2, 3, 4, 5], "spliced", "True"⟩]
    ∧ CONVERSION_IDX.lookup ("A", "C") = some 0 :=
  ⟨rfl, rfl, rfl⟩

/-! ### C3: counting correctness on the three-record read -/

/-- C3.  For the partition holding exactly the three conversion records of
read `"r1"` with `(original, converted, quality)` equal to `(A,C,30)`,
`(A,C,10)`, `(G,T,30)`, no SNP table and quality threshold 27, the worker
emits exactly one Count Row whose A→C count (position 0) is 1 — the
quality-10 record fails the strict comparison — whose G→T count
(position 8) is 1, and whose other ten conversion positions are all 0,
with the base-content counts copied from the read's records. -/
theorem C3_three_record_read_counting :
    count_conversions_part none 27
      [⟨"r1", "b", "u", "g", "1", 100, "A", "C", 30, 10, 20, 30, 40, "spliced", "True"⟩,
       ⟨"r1", "b", "u", "g", "1", 101, "A", "C", 10, 10, 20, 30, 40, "spliced", "True"⟩,
       ⟨"r1", "b", "u", "g", "1", 102, "G", "T", 30, 10, 20, 30, 40, "spliced", "True"⟩]
      = .ok [⟨"b", "u", "g", [1, 0, 0, 0, 0, 0, 0, 0, 1, 0, 0, 0, 10, 20, 30, 40], "spliced", "True"⟩]
    ∧ CONVERSION_IDX.lookup ("A", "C") = some 0
    ∧ CONVERSION_IDX.lookup ("G", "T") = some 8 :=
  ⟨rfl, rfl, rfl⟩

/-! ## conversion.py: deduplicate_counts

A parsed count row as `read_counts` loads the combined counts CSV
(`transcriptome` parsed to bool, counts to integers); `counts` is the
16-entry vector in `COLUMNS` order. -/

structure CountRow where
  barcode : String
  umi : String
  GX : String
  velocity : String
  transcriptome : Bool
  counts : List Nat
  deriving DecidableEq

/-- The column `df_counts[BASE_COLUMNS].sum(axis=1)`: the base-content sum, i.e. the
sum of positions 12-15 of the count vector. -/
def base_sum (r : CountRow) : Nat := (r.counts.drop 12).sum

/-- The deduplication key `['barcode', 'umi', 'GX']`. -/
def dedupKey (r : CountRow) : String × String × String := (r.barcode, r.umi, r.GX)

/-- The sort key of `sort_values(['base_sum', 'transcriptome'])`: ascending
base-content sum, then `transcriptome` with `False` before `True`. -/
def dupLe (a b : CountRow) : Bool :=
  (base_sum a).blt (base_sum b)
    || ((base_sum a).beq (base_sum b) && (!a.transcriptome || b.transcriptome))

def DupLe (a b : CountRow) : Prop := dupLe a b = true

instance : DecidableRel DupLe := fun _a _b => inferInstanceAs (Decidable (_ = true))

theorem dupLe_trans : ∀ a b c : CountRow, DupLe a b → DupLe b c → DupLe a c := by
  intro a b c hab hbc
  simp only [DupLe, dupLe, Bool.or_eq_true, Bool.and_eq_true, Nat.blt_eq, Nat.beq_eq] at *
  rcases hab with h1 | ⟨h1, h1'⟩ <;> rcases hbc with h2 | ⟨h2, h2'⟩
  · exact Or.inl (Nat.lt_trans h1 h2)
  · exact Or.inl (h2 ▸ h1)
  · exact Or.inl (h1 ▸ h2)
  · refine Or.inr ⟨h1.trans h2, ?_⟩
    cases ha : a.transcriptome <;> cases hb : b.transcriptome <;>
      cases hc : c.transcriptome <;> simp_all

theorem dupLe_total : ∀ a b : CountRow, DupLe a b ∨ DupLe b a := by
  intro a b
  simp only [DupLe, dupLe, Bool.or_eq_true, Bool.and_eq_true, Nat.blt_eq, Nat.beq_eq]
  rcases Nat.lt_trichotomy (base_sum a) (base_sum b) with h | h | h
  · exact Or.inl (Or.inl h)
  · cases ha : a.transcriptome <;> cases hb : b.transcriptome
    · exact Or.inl (Or.inr ⟨h, by simp⟩)
    · exact Or.inl (Or.inr ⟨h, by simp⟩)
    · exact Or.inr (Or.inr ⟨h.symm, by simp⟩)
    · exact Or.inl (Or.inr ⟨h, by simp⟩)
  · exact Or.inr (Or.inl h)

instance : IsTrans CountRow DupLe := ⟨dupLe_trans⟩

instance : IsTotal CountRow DupLe := ⟨dupLe_total⟩

theorem dupLe_refl (a : CountRow) : DupLe a a := by
  simp only [DupLe, dupLe, Bool.or_eq_true, Bool.and_eq_true, Nat.blt_eq, Nat.beq_eq]
  cases ha : a.transcriptome <;> simp

/-- The final `sort_values('barcode')` relation. -/
def BarcodeLe (a b : CountRow) : Prop := SLe a.barcode b.barcode

instance : DecidableRel BarcodeLe := fun _a _b => inferInstanceAs (Decidable (_ = true))

instance : IsTrans CountRow BarcodeLe :=
  ⟨fun a b c => strLe_trans a.barcode b.barcode c.barcode⟩

instance : IsTotal CountRow BarcodeLe := ⟨fun a b => strLe_total a.barcode b.barcode⟩

/-- The selection `df_sorted[~df_sorted.duplicated(subset=['barcode','umi','GX'],
keep='last')]`: drop every row that has a later row with the same key. -/
def dropDuplicatesKeepLast : List CountRow → List CountRow
  | [] => []
  | r :: rs =>
    if rs.any (fun s => dedupKey r == dedupKey s) then dropDuplicatesKeepLast rs
    else r :: dropDuplicatesKeepLast rs

/-- The function `deduplicate_counts`: sort by `(base_sum, transcriptome)`, keep the last
row of every `(barcode, umi, GX)` group, then sort by `barcode` (the helper
`base_sum` column is dropped again, so rows are otherwise unchanged). -/
def deduplicate_counts (l : List CountRow) : List CountRow :=
  List.insertionSort BarcodeLe
    (dropDuplicatesKeepLast (List.insertionSort DupLe l))

theorem dropDuplicatesKeepLast_subset :
    ∀ l : List CountRow, ∀ x ∈ dropDuplicatesKeepLast l, x ∈ l := by
  intro l
  induction l with
  | nil => intro x hx; exact absurd hx (by simp [dropDuplicatesKeepLast])
  | cons r rs ih =>
    intro x hx
    rw [dropDuplicatesKeepLast] at hx
    by_cases h : (rs.any fun s => dedupKey r == dedupKey s) = true
    · rw [if_pos h] at hx
      exact List.mem_cons_of_mem r (ih x hx)
    · rw [if_neg h] at hx
      rcases List.mem_cons.mp hx with rfl | hx'
      · exact List.mem_cons_self x rs
      · exact List.mem_cons_of_mem r (ih x hx')

theorem dropDuplicatesKeepLast_countP (k : String × String × String) :
    ∀ l : List CountRow,
    (dropDuplicatesKeepLast l).countP (fun m => dedupKey m == k)
      = if l.any (fun m => dedupKey m == k) then 1 else 0 := by
  intro l
  induction l with
  | nil => simp [dropDuplicatesKeepLast]
  | cons r rs ih =>
    rw [dropDuplicatesKeepLast]
    by_cases h : (rs.any fun s => dedupKey r == dedupKey s) = true
    · rw [if_pos h]
      by_cases hk : dedupKey r = k
      · have hany : rs.any (fun m => dedupKey m == k) = true := by
          rcases List.any_eq_true.mp h with ⟨s, hs, hks⟩
          refine List.any_eq_true.mpr ⟨s, hs, ?_⟩
          have : dedupKey r = dedupKey s := by simpa using hks
          simp [← this, hk]
        rw [ih, hany]
        have : (r :: rs).any (fun m => dedupKey m == k) = true := by
          simp [List.any_cons, hany]
        rw [this]
      · have : ((r :: rs).any fun m => dedupKey m == k)
            = (rs.any fun m => dedupKey m == k) := by
          simp [List.any_cons, hk]
        rw [ih, this]
    · rw [if_neg h, List.countP_cons]
      by_cases hk : dedupKey r = k
      · have hnone : rs.any (fun m => dedupKey m == k) = false := by
          rw [List.any_eq_false]
          intro s hs hks
          refine h ?_
          refine List.any_eq_true.mpr ⟨s, hs, ?_⟩
          have : dedupKey s = k := by simpa using hks
          simp [hk, this]
        rw [ih, hnone]
        have : ((r :: rs).any fun m => dedupKey m == k) = true := by
          simp [List.any_cons, hk]
        rw [this]
        simp [hk]
      · rw [ih]
        have : ((r :: rs).any fun m => dedupKey m == k)
            = (rs.any fun m => dedupKey m == k) := by
          simp [List.any_cons, hk]
        rw [this]
        simp [hk]

theorem dropDuplicatesKeepLast_max :
    ∀ l : List CountRow, l.Pairwise DupLe →
    ∀ m ∈ dropDuplicatesKeepLast l, ∀ s ∈ l, dedupKey s = dedupKey m → DupLe s m := by
  intro l
  induction l with
  | nil => intro _ m hm; exact absurd hm (by simp [dropDuplicatesKeepLast])
  | cons r rs ih =>
    intro hp m hm s hs hkey
    obtain ⟨hr, hp'⟩ := List.pairwise_cons.mp hp
    rw [dropDuplicatesKeepLast] at hm
    by_cases h : (rs.any fun s => dedupKey r == dedupKey s) = true
    · rw [if_pos h] at hm
      rcases List.mem_cons.mp hs with rfl | hs'
      · exact hr m (dropDuplicatesKeepLast_subset rs m hm)
      · exact ih hp' m hm s hs' hkey
    · rw [if_neg h] at hm
      rcases List.mem_cons.mp hm with rfl | hm'
      · rcases List.mem_cons.mp hs with rfl | hs'
        · exact dupLe_refl s
        · exfalso
          refine h (List.any_eq_true.mpr ⟨s, hs', ?_⟩)
          simp [hkey]
      · rcases List.mem_cons.mp hs with rfl | hs'
        · exact hr m (dropDuplicatesKeepLast_subset rs m hm')
        · exact ih hp' m hm' s hs' hkey

theorem countP_eq_one_unique {α : Type} (p : α → Bool) :
    ∀ l : List α, l.countP p = 1 →
    ∀ a ∈ l, p a = true → ∀ b ∈ l, p b = true → a = b := by
  intro l
  induction l with
  | nil => intro _ a ha; exact absurd ha (by simp)
  | cons x t ih =>
    intro hcount a ha hpa b hb hpb
    rw [List.countP_cons] at hcount
    by_cases hx : p x = true
    · rw [if_pos hx] at hcount
      have ht : t.countP p = 0 := by omega
      have hnone : ∀ c ∈ t, ¬ p c = true := List.countP_eq_zero.mp ht
      have ha' : a = x := by
        rcases List.mem_cons.mp ha with rfl | h
        · rfl
        · exact absurd hpa (hnone a h)
      have hb' : b = x := by
        rcases List.mem_cons.mp hb with rfl | h
        · rfl
        · exact absurd hpb (hnone b h)
      rw [ha', hb']
    · rw [if_neg hx] at hcount
      have ha' : a ∈ t := by
        rcases List.mem_cons.mp ha with rfl | h
        · exact absurd hpa hx
        · exact h
      have hb' : b ∈ t := by
        rcases List.mem_cons.mp hb with rfl | h
        · exact absurd hpb hx
        · exact h
      exact ih (by omega) a ha' hpa b hb' hpb

theorem dupLe_dest (s m : CountRow) (h : DupLe s m) :
    base_sum s ≤ base_sum m ∧
    (base_sum s = base_sum m → s.transcriptome = true → m.transcriptome = true) := by
  simp only [DupLe, dupLe, Bool.or_eq_true, Bool.and_eq_true, Nat.blt_eq, Nat.beq_eq] at h
  rcases h with h | ⟨h, h'⟩
  · exact ⟨Nat.le_of_lt h, fun he => absurd he (by omega)⟩
  · refine ⟨Nat.le_of_eq h, fun _ hst => ?_⟩
    cases hm : m.transcriptome
    · rw [hst, hm] at h'
      simp at h'
    · rfl

/-- C2.  `deduplicate_counts` keeps exactly one row per occurring
`(barcode, umi, GX)` key; every output row comes from the input, and a kept
row maximizes the base-content sum within its key group, with
`transcriptome = true` beating `false` among rows of maximal base sum; the
output is sorted by `barcode`; a row whose key is unique in the input is
kept unchanged. -/
theorem C2_deduplicate_counts_priority
    (l : List CountRow) (k : String × String × String) :
    ((∃ r ∈ l, dedupKey r = k) →
      (deduplicate_counts l).countP (fun m => dedupKey m == k) = 1)
    ∧ (∀ m ∈ deduplicate_counts l, m ∈ l)
    ∧ (∀ m ∈ deduplicate_counts l, dedupKey m = k →
        ∀ s ∈ l, dedupKey s = k →
          base_sum s ≤ base_sum m ∧
          (base_sum s = base_sum m → s.transcriptome = true → m.transcriptome = true))
    ∧ List.Pairwise (fun a b => strLe a.barcode b.barcode = true) (deduplicate_counts l)
    ∧ (l.countP (fun r => dedupKey r == k) = 1 →
        ∀ r ∈ l, dedupKey r = k → r ∈ deduplicate_counts l) := by
  have hperm1 : (List.insertionSort DupLe l).Perm l := List.perm_insertionSort DupLe l
  have hpairs : (List.insertionSort DupLe l).Pairwise DupLe :=
    List.sorted_insertionSort DupLe l
  have hperm2 : (deduplicate_counts l).Perm
      (dropDuplicatesKeepLast (List.insertionSort DupLe l)) :=
    List.perm_insertionSort BarcodeLe _
  have hmem_out : ∀ m, m ∈ deduplicate_counts l →
      m ∈ dropDuplicatesKeepLast (List.insertionSort DupLe l) := by
    intro m hm
    exact hperm2.mem_iff.mp hm
  have hsub : ∀ m ∈ deduplicate_counts l, m ∈ l := by
    intro m hm
    exact hperm1.mem_iff.mp
      (dropDuplicatesKeepLast_subset _ m (hmem_out m hm))
  refine ⟨?_, hsub, ?_, ?_, ?_⟩
  · intro ⟨r, hr, hkr⟩
    rw [hperm2.countP_eq, dropDuplicatesKeepLast_countP]
    have : (List.insertionSort DupLe l).any (fun m => dedupKey m == k) = true := by
      refine List.any_eq_true.mpr ⟨r, hperm1.mem_iff.mpr hr, ?_⟩
      simp [hkr]
    rw [this]
    rfl
  · intro m hm hkm s hs hks
    have hm' := hmem_out m hm
    have hs' : s ∈ List.insertionSort DupLe l := hperm1.mem_iff.mpr hs
    exact dupLe_dest s m
      (dropDuplicatesKeepLast_max _ hpairs m hm' s hs' (by rw [hks, hkm]))
  · exact List.sorted_insertionSort BarcodeLe _
  · intro hcount r hr hkr
    have hone : (deduplicate_counts l).countP (fun m => dedupKey m == k) = 1 := by
      rw [hperm2.countP_eq, dropDuplicatesKeepLast_countP]
      have : (List.insertionSort DupLe l).any (fun m => dedupKey m == k) = true := by
        refine List.any_eq_true.mpr ⟨r, hperm1.mem_iff.mpr hr, ?_⟩
        simp [hkr]
      rw [this]
      rfl
    have hpos : 0 < (deduplicate_counts l).countP (fun m => dedupKey m == k) := by
      omega
    obtain ⟨m, hm, hkm⟩ := List.countP_pos_iff.mp hpos
    have hmkey : dedupKey m = k := by simpa using hkm
    have : r = m :=
      countP_eq_one_unique (fun x => dedupKey x == k) l hcount r hr
        (by simp [hkr]) m (hsub m hm) (by simp [hmkey])
    rw [this]
    exact hm

/-- Witness for C2: of two duplicate rows with base sums 10 and 20 (both
with `transcriptome = false`), the base-sum-20 row is kept, and the claim's
conclusions hold at this input. -/
theorem C2_deduplicate_counts_priority_witness :
    (∃ r ∈ [CountRow.mk "b" "u" "g" "spliced" false
              [0, 0, 0, 0, 0, 0, 0, 0, 0, 0, 0, 0, 1, 2, 3, 4],
            CountRow.mk "b" "u" "g" "spliced" false
              [0, 0, 0, 0, 0, 0, 0, 0, 0, 0, 0, 0, 2, 4, 6, 8]],
        dedupKey r = ("b", "u", "g"))
    ∧ (deduplicate_counts
        [CountRow.mk "b" "u" "g" "spliced" false
           [0, 0, 0, 0, 0, 0, 0, 0, 0, 0, 0, 0, 1, 2, 3, 4],
         CountRow.mk "b" "u" "g" "spliced" false
           [0, 0, 0, 0, 0, 0, 0, 0, 0, 0, 0, 0, 2, 4, 6, 8]]).countP
        (fun m => dedupKey m == ("b", "u", "g")) = 1
    ∧ deduplicate_counts
        [CountRow.mk "b" "u" "g" "spliced" false
           [0, 0, 0, 0, 0, 0, 0, 0, 0, 0, 0, 0, 1, 2, 3, 4],
         CountRow.mk "b" "u" "g" "spliced" false
           [0, 0, 0, 0, 0, 0, 0, 0, 0, 0, 0, 0, 2, 4, 6, 8]]
        = [CountRow.mk "b" "u" "g" "spliced" false
             [0, 0, 0, 0, 0, 0, 0, 0, 0, 0, 0, 0, 2, 4, 6, 8]] :=
  ⟨by decide,
   (C2_deduplicate_counts_priority _ ("b", "u", "g")).1 (by decide),
   by decide⟩

/-! ## conversion.py: complement_counts

`complement_counts` selects the columns
`['barcode','GX','velocity','transcriptome'] + COLUMNS` (note: `umi` is not
among them), passes forward-strand rows through, and for reverse-strand
rows assigns the column labels `CONVERSION_COLUMNS[::-1] + BASE_COLUMNS[::-1]`
before reselecting in the original order — which permutes the 12 conversion
values and the 4 base values by position reversal within each block. -/

/-- The column-name list of the counts CSV (`read_counts` schema). -/
def countsColumns : List String :=
  ["barcode", "umi", "GX"] ++ COLUMNS ++ ["velocity", "transcriptome"]

/-- The columns `complement_counts` selects (line 100 of conversion.py). -/
def complementSelectedColumns : List String :=
  ["barcode", "GX", "velocity", "transcriptome"] ++ COLUMNS

/-- Positional effect on a 16-entry count vector of relabelling the columns
with the reversed lists and reselecting: each block is reversed. -/
def complementCounts16 (l : List Nat) : List Nat :=
  (l.take 12).reverse ++ (l.drop 12).reverse

/-- An output row of `complement_counts` (the selected columns only; there
is no `umi` field). -/
structure ComplementedRow where
  barcode : String
  GX : String
  velocity : String
  transcriptome : Bool
  counts : List Nat
  deriving DecidableEq

def selectComplementColumns (r : CountRow) : ComplementedRow :=
  ⟨r.barcode, r.GX, r.velocity, r.transcriptome, r.counts⟩

/-- The function `complement_counts`: forward-strand rows (selected columns) followed by
reverse-strand rows with both count blocks reversed; `strandOf` is the
externally supplied `gene_infos[gx]['strand']` mapping. -/
def complement_counts (rows : List CountRow) (strandOf : String → String) :
    List ComplementedRow :=
  (rows.filter (fun r => strandOf r.GX == "+")).map selectComplementColumns
    ++ (rows.filter (fun r => strandOf r.GX == "-")).map
        (fun r => ⟨r.barcode, r.GX, r.velocity, r.transcriptome,
                   complementCounts16 r.counts⟩)

/-- The complement of a base character (A↔T, C↔G). -/
def complementBaseChar (c : Char) : Char :=
  if c = 'A' then 'T'
  else if c = 'C' then 'G'
  else if c = 'G' then 'C'
  else if c = 'T' then 'A'
  else c

/-- The complement of a column name, base by base. -/
def complementColumn (s : String) : String :=
  String.mk (s.data.map complementBaseChar)

/-- C7.  The reverse-strand reassignment of `complement_counts` is exactly
the base-complement pairing: on a 16-entry count vector it reverses the
conversion block and the base block, so e.g. the value recorded under G→A
(position 6) appears under C→T (position 5); applying the reassignment
twice is the identity; and the positional reversal of the sorted column
lists realizes the complement pairing for all 12 conversion columns and
all 4 bases, both at the level of column names and of `CONVERSION_IDX`
positions; finally every reverse-strand row of a table is emitted by
`complement_counts` with exactly this reassignment of its counts. -/
theorem C7_complement_is_involutive_base_pair_reversal :
    (∀ x0 x1 x2 x3 x4 x5 x6 x7 x8 x9 x10 x11 x12 x13 x14 x15 : Nat,
      complementCounts16 [x0, x1, x2, x3, x4, x5, x6, x7, x8, x9, x10, x11,
                          x12, x13, x14, x15]
        = [x11, x10, x9, x8, x7, x6, x5, x4, x3, x2, x1, x0,
           x15, x14, x13, x12])
    ∧ (∀ x0 x1 x2 x3 x4 x5 x6 x7 x8 x9 x10 x11 x12 x13 x14 x15 : Nat,
      complementCounts16 (complementCounts16
          [x0, x1, x2, x3, x4, x5, x6, x7, x8, x9, x10, x11,
           x12, x13, x14, x15])
        = [x0, x1, x2, x3, x4, x5, x6, x7, x8, x9, x10, x11,
           x12, x13, x14, x15])
    ∧ CONVERSION_COLUMNS.reverse = CONVERSION_COLUMNS.map complementColumn
    ∧ BASE_COLUMNS.reverse = BASE_COLUMNS.map complementColumn
    ∧ (∀ x ∈ CONVERSION_IDX,
        ((complementColumn x.1.1, complementColumn x.1.2), 11 - x.2) ∈ CONVERSION_IDX)
    ∧ CONVERSION_COLUMNS.getD 5 "" = "CT" ∧ CONVERSION_COLUMNS.getD 6 "" = "GA"
    ∧ (∀ (rows : List CountRow) (strandOf : String → String) (r : CountRow),
        r ∈ rows → strandOf r.GX = "-" →
        ComplementedRow.mk r.barcode r.GX r.velocity r.transcriptome
            (complementCounts16 r.counts)
          ∈ complement_counts rows strandOf) := by
  refine ⟨fun _ _ _ _ _ _ _ _ _ _ _ _ _ _ _ _ => rfl,
         fun _ _ _ _ _ _ _ _ _ _ _ _ _ _ _ _ => rfl,
         by decide, by decide, by decide, by decide, by decide, ?_⟩
  intro rows strandOf r hr hstrand
  refine List.mem_append_right _ ?_
  exact List.mem_map.mpr ⟨r, List.mem_filter.mpr ⟨hr, by simp [hstrand]⟩, rfl⟩

/-- Witness for C7 at a concrete reverse-strand row. -/
theorem C7_complement_is_involutive_base_pair_reversal_witness :
    ComplementedRow.mk "b" "g" "spliced" true
        (complementCounts16 [0, 1, 2, 3, 4, 5, 6, 7, 8, 9, 10, 11, 12, 13, 14, 15])
      ∈ complement_counts
          [CountRow.mk "b" "u" "g" "spliced" true
            [0, 1, 2, 3, 4, 5, 6, 7, 8, 9, 10, 11, 12, 13, 14, 15]]
          (fun _ => "-") :=
  C7_complement_is_involutive_base_pair_reversal.2.2.2.2.2.2.2
    [CountRow.mk "b" "u" "g" "spliced" true
      [0, 1, 2, 3, 4, 5, 6, 7, 8, 9, 10, 11, 12, 13, 14, 15]]
    (fun _ => "-")
    (CountRow.mk "b" "u" "g" "spliced" true
      [0, 1, 2, 3, 4, 5, 6, 7, 8, 9, 10, 11, 12, 13, 14, 15])
    (by decide) rfl

/-- C8 counterexample.  The claim "every column of a forward-strand row
(including `umi`) appears in the output with the same value, and the output
has the same set of columns as the input" fails: `umi` is a column of the
counts table but not of the column list `complement_counts` selects. -/
theorem C8_umi_column_dropped_counterexample :
    "umi" ∈ countsColumns ∧ "umi" ∉ complementSelectedColumns := by
  decide

/-- C8 (amended).  A forward-strand row passes through `complement_counts`
with its `barcode`, `GX`, `velocity`, `transcriptome` and all 16 count
columns unchanged, but projected onto the selected columns, which do not
include `umi`. -/
theorem C8_forward_rows_pass_through_without_umi
    (rows : List CountRow) (strandOf : String → String) (r : CountRow)
    (hr : r ∈ rows) (hstrand : strandOf r.GX = "+") :
    selectComplementColumns r ∈ complement_counts rows strandOf
    ∧ (selectComplementColumns r).barcode = r.barcode
    ∧ (selectComplementColumns r).GX = r.GX
    ∧ (selectComplementColumns r).velocity = r.velocity
    ∧ (selectComplementColumns r).transcriptome = r.transcriptome
    ∧ (selectComplementColumns r).counts = r.counts
    ∧ "umi" ∉ complementSelectedColumns := by
  refine ⟨?_, rfl, rfl, rfl, rfl, rfl, by decide⟩
  refine List.mem_append_left _ ?_
  exact List.mem_map.mpr ⟨r, List.mem_filter.mpr ⟨hr, by simp [hstrand]⟩, rfl⟩

/-- Witness for C8 at a concrete forward-strand row. -/
theorem C8_forward_rows_pass_through_without_umi_witness :
    selectComplementColumns
        (CountRow.mk "b" "u" "g" "spliced" false
          [1, 0, 0, 0, 0, 0, 0, 0, 0, 0, 0, 0, 10, 20, 30, 40])
      ∈ complement_counts
          [CountRow.mk "b" "u" "g" "spliced" false
            [1, 0, 0, 0, 0, 0, 0, 0, 0, 0, 0, 0, 10, 20, 30, 40]]
          (fun _ => "+")
    ∧ "umi" ∉ complementSelectedColumns :=
  ⟨(C8_forward_rows_pass_through_without_umi
      [CountRow.mk "b" "u" "g" "spliced" false
        [1, 0, 0, 0, 0, 0, 0, 0, 0, 0, 0, 0, 10, 20, 30, 40]]
      (fun _ => "+")
      (CountRow.mk "b" "u" "g" "spliced" false
        [1, 0, 0, 0, 0, 0, 0, 0, 0, 0, 0, 0, 10, 20, 30, 40])
      (by decide) rfl).1,
   (C8_forward_rows_pass_through_without_umi
      [CountRow.mk "b" "u" "g" "spliced" false
        [1, 0, 0, 0, 0, 0, 0, 0, 0, 0, 0, 0, 10, 20, 30, 40]]
      (fun _ => "+")
      (CountRow.mk "b" "u" "g" "spliced" false
        [1, 0, 0, 0, 0, 0, 0, 0, 0, 0, 0, 0, 10, 20, 30, 40])
      (by decide) rfl).2.2.2.2.2.2⟩

/-! ## snp.py: extract_conversions_part -/

/-- The named-group dictionary `CONVERSIONS_PARSER.match(line).groupdict()`:
exactly the 15 group names of the parser, in its order.  There is no
`index` group. -/
def groupdictFields (r : ConvRecord) : List (String × String) :=
  [("read_id", r.read_id), ("barcode", r.barcode), ("umi", r.umi),
   ("GX", r.GX), ("contig", r.contig), ("genome_i", toString r.genome_i),
   ("original", r.original), ("converted", r.converted),
   ("quality", toString r.quality), ("A", toString r.A),
   ("C", toString r.C), ("G", toString r.G), ("T", toString r.T),
   ("velocity", r.velocity), ("transcriptome", r.transcriptome)]

/-- Python `d[k]` on a string-keyed dict: `KeyError` when absent. -/
def dict_getE {β : Type} (d : List (String × β)) (k : String) : Except String β :=
  match d.lookup k with
  | some v => .ok v
  | none => .error ("KeyError: " ++ k)

/-- Python `int(s)`. -/
def pyInt (s : String) : Except String Int :=
  match s.toInt? with
  | some n => .ok n
  | none => .error ("ValueError: " ++ s)

/-- Per-position conversion counts for one contig. -/
abbrev PosCounts := List (Nat × Nat)

/-- Per-contig, per-position conversion counts. -/
abbrev ContigMap := List (String × PosCounts)

/-- The nested dictionary built by `extract_conversions_part`:
conversion type → contig → genomic position → count. -/
abbrev Convs := List (String × ContigMap)

/-- The update `convs.setdefault(...).setdefault(...).setdefault(genome_i, 0)` and
`convs[conversion][contig][genome_i] = count + 1` on the innermost map. -/
def posIncrement : PosCounts → Nat → PosCounts
  | [], p => [(p, 1)]
  | (q, c) :: t, p => if p = q then (q, c + 1) :: t else (q, c) :: posIncrement t p

def contigIncrement : ContigMap → String → Nat → ContigMap
  | [], c, p => [(c, posIncrement [] p)]
  | (k, m) :: t, c, p =>
    if c = k then (k, posIncrement m p) :: t else (k, m) :: contigIncrement t c p

def convsIncrement : Convs → String → String → Nat → Convs
  | [], cv, c, p => [(cv, contigIncrement [] c p)]
  | (k, m) :: t, cv, c, p =>
    if cv = k then (k, contigIncrement m c p) :: t
    else (k, m) :: convsIncrement t cv c p

/-- The inner record loop of `extract_conversions_part` over one index
entry: computes `key = (groups['read_id'], int(groups['index']))` — note
the lookup of the nonexistent `index` group — `break`s out of the entry
when an alignment set is supplied and lacks the key, and counts the
conversion of every remaining record with `quality` strictly above the
threshold. -/
def extractEntry (alignments : Option (List (String × Int))) (quality : Nat) :
    List ConvRecord → Convs → Except String Convs
  | [], convs => .ok convs
  | r :: rs, convs => do
    let groups := groupdictFields r
    let rid ← dict_getE groups "read_id"
    let idxS ← dict_getE groups "index"
    let idx ← pyInt idxS
    if (match alignments with
        | some al => !al.isEmpty && !(al.contains (rid, idx))
        | none => false) then
      .ok convs
    else if quality < r.quality then
      extractEntry alignments quality rs
        (convsIncrement convs (r.original ++ r.converted) r.contig r.genome_i)
    else
      extractEntry alignments quality rs convs

def extractGo (alignments : Option (List (String × Int))) (quality : Nat) :
    List (List ConvRecord) → Convs → Except String Convs
  | [], convs => .ok convs
  | e :: es, convs => do
    let convs' ← extractEntry alignments quality e convs
    extractGo alignments quality es convs'

/-- The worker `extract_conversions_part` over its assigned index entries (each entry
the parsed records of one `(pos, n_lines)` pair), with the progress counter
abstracted away. -/
def extract_conversions_part (alignments : Option (List (String × Int)))
    (quality : Nat) (index : List (List ConvRecord)) : Except String Convs :=
  extractGo alignments quality index []

theorem extractEntry_key_error (alignments : Option (List (String × Int)))
    (quality : Nat) (r : ConvRecord) (rs : List ConvRecord) (convs : Convs) :
    extractEntry alignments quality (r :: rs) convs = .error "KeyError: index" := rfl

theorem extractGo_key_error (alignments : Option (List (String × Int))) (quality : Nat) :
    ∀ (es : List (List ConvRecord)) (convs : Convs),
    (∃ e ∈ es, e ≠ []) → extractGo alignments quality es convs = .error "KeyError: index" := by
  intro es
  induction es with
  | nil => intro convs h; simp at h
  | cons e es ih =>
    intro convs h
    cases e with
    | nil =>
      rcases h with ⟨e', he', hne⟩
      rcases List.mem_cons.mp he' with rfl | he''
      · exact absurd rfl hne
      · show extractGo alignments quality es convs = _
        exact ih convs ⟨e', he'', hne⟩
    | cons r rs =>
      rw [extractGo, extractEntry_key_error]
      rfl

/-- C6.  `extract_conversions_part` never completes on a partition with at
least one record: the parser has no `index` group, so the key computation
`(groups['read_id'], int(groups['index']))` — executed for every record,
with or without an alignment set — fails with an unhandled `KeyError`
instead of returning the per-`(conversion, contig, genome_i)` counts. -/
theorem C6_extract_conversions_part_key_error
    (alignments : Option (List (String × Int))) (quality : Nat)
    (index : List (List ConvRecord)) (h : ∃ e ∈ index, e ≠ []) :
    extract_conversions_part alignments quality index = .error "KeyError: index" :=
  extractGo_key_error alignments quality index [] h

/-- Witness for C6: a partition holding one single-record index entry. -/
theorem C6_extract_conversions_part_key_error_witness :
    (∃ e ∈ [[ConvRecord.mk "r1" "b" "u" "g" "1" 100 "A" "C" 30 10 20 30 40 "spliced" "True"]],
      e ≠ [])
    ∧ extract_conversions_part none 27
        [[ConvRecord.mk "r1" "b" "u" "g" "1" 100 "A" "C" 30 10 20 30 40 "spliced" "True"]]
        = .error "KeyError: index" :=
  ⟨by decide, C6_extract_conversions_part_key_error none 27 _ (by decide)⟩

/-! ## snp.py: detect_snps (decision phase)

The decision phase consumes the extracted `Convs` and the externally
supplied Coverage Table.  `utils.merge_dictionaries` and
`utils.flatten_dictionary` are not part of the sources under inspection;
they are modelled from the spec below. -/

/-- Coverage Table: contig → genomic position → read depth. -/
abbrev Coverage := List (String × List (Nat × Nat))

def lookupD {α β : Type} [BEq α] (m : List (α × β)) (k : α) (d : β) : β :=
  (m.lookup k).getD d

/-- Modelled from the spec: the leaf step of `utils.merge_dictionaries`
with `f = operator.truediv` (utils.py is not under src/): a key missing on
one side contributes the default 0, and Python raises `ZeroDivisionError`
when the divisor is 0 — the unchecked code path of §9 of the spec. -/
def truedivLeaf (c1 c2 : Nat) : Except String ℚ :=
  if c2 = 0 then .error "ZeroDivisionError" else .ok ((c1 : ℚ) / (c2 : ℚ))

/-- The union of the key lists of two association lists, first map's keys
first. -/
def unionKeys {α β γ : Type} [BEq α] (m1 : List (α × β)) (m2 : List (α × γ)) :
    List α :=
  m1.map Prod.fst ++ (m2.map Prod.fst).filter (fun k => !((m1.map Prod.fst).contains k))

def mergeInnerGo (m1 m2 : List (Nat × Nat)) : List Nat → Except String (List (Nat × ℚ))
  | [] => .ok []
  | k :: ks => do
    let v ← truedivLeaf (lookupD m1 k 0) (lookupD m2 k 0)
    let rest ← mergeInnerGo m1 m2 ks
    .ok ((k, v) :: rest)

def mergeOuterGo (d1 : ContigMap) (d2 : Coverage) :
    List String → Except String (List (String × List (Nat × ℚ)))
  | [] => .ok []
  | c :: cs => do
    let inner ← mergeInnerGo (lookupD d1 c []) (lookupD d2 c [])
      (unionKeys (lookupD d1 c []) (lookupD d2 c []))
    let rest ← mergeOuterGo d1 d2 cs
    .ok ((c, inner) :: rest)

/-- Modelled from the spec: `utils.merge_dictionaries(_convs, coverage,
f=truediv)` on the two-level maps contig → position → value, combining
leaves over the union of keys, with an empty map for a missing contig and
the default 0 for a missing position. -/
def merge_dictionaries_truediv (d1 : ContigMap) (d2 : Coverage) :
    Except String (List (String × List (Nat × ℚ))) :=
  mergeOuterGo d1 d2 (unionKeys d1 d2)

/-- Modelled from the spec: `utils.flatten_dictionary`, yielding
`((contig, genome_i), value)` pairs of a two-level map. -/
def flatten_dictionary : List (String × List (Nat × ℚ)) → List ((String × Nat) × ℚ)
  | [] => []
  | (c, m) :: rest => m.map (fun pv => ((c, pv.1), pv.2)) ++ flatten_dictionary rest

/-- One line of the detected-SNPs CSV: contig, position and the conversion
type whose `conversion[0]`/`conversion[1]` make the original/converted
columns. -/
structure SnpRow where
  contig : String
  genome_i : Nat
  conversion : String
  deriving DecidableEq

/-- Python `d[k]` on an int-keyed dict. -/
def dictGetNatE {β : Type} (d : List (Nat × β)) (k : Nat) : Except String β :=
  match d.lookup k with
  | some v => .ok v
  | none => .error "KeyError"

/-- The emission loop over the flattened fractions of one conversion type:
`if coverage[contig][genome_i] >= min_coverage and fraction > threshold`,
writing a SNP row. -/
def snpEmitGo (coverage : Coverage) (threshold : ℚ) (min_coverage : Nat)
    (conversion : String) :
    List ((String × Nat) × ℚ) → Except String (List SnpRow)
  | [] => .ok []
  | ((c, p), f) :: rest => do
    let inner ← dict_getE coverage c
    let cov ← dictGetNatE inner p
    let rows ← snpEmitGo coverage threshold min_coverage conversion rest
    .ok (if min_coverage ≤ cov ∧ threshold < f then ⟨c, p, conversion⟩ :: rows else rows)

def detectGo (coverage : Coverage) (threshold : ℚ) (min_coverage : Nat) :
    Convs → Except String (List SnpRow)
  | [] => .ok []
  | (conversion, m) :: rest => do
    let fractions ← merge_dictionaries_truediv m coverage
    let rows ← snpEmitGo coverage threshold min_coverage conversion
      (flatten_dictionary fractions)
    let more ← detectGo coverage threshold min_coverage rest
    .ok (rows ++ more)

/-- The decision phase of `detect_snps` (lines 234-242 of snp.py): for each
conversion type of the extracted counts, divide the per-position counts by
coverage via `merge_dictionaries(..., f=truediv)` and emit every position
with `coverage[contig][genome_i] >= min_coverage and fraction >
threshold`. -/
def detect_snps (convs : Convs) (coverage : Coverage) (threshold : ℚ)
    (min_coverage : Nat) : Except String (List SnpRow) :=
  detectGo coverage threshold min_coverage convs

/-- C5 (refuting evaluation).  A position with a nonzero extracted count
that is absent from the Coverage Table is divided by the default coverage
0 by the `truediv` merge, so `detect_snps` raises `ZeroDivisionError`
instead of treating the position as zero coverage and skipping it. -/
theorem C5_missing_coverage_entry_division_error :
    detect_snps [("AC", [("1", [(5, 3)])])] [] (1/2) 1 = .error "ZeroDivisionError" := rfl

/-! ### Association-list lemmas for the SNP decision proof -/

theorem bindOk {ε α β : Type} (a : α) (f : α → Except ε β) :
    (Bind.bind (Except.ok a) f : Except ε β) = f a := rfl

theorem lookup_mem {α β : Type} [BEq α] [LawfulBEq α] :
    ∀ (m : List (α × β)) (k : α) (v : β), m.lookup k = some v → (k, v) ∈ m := by
  intro m
  induction m with
  | nil => intro k v h; simp [List.lookup] at h
  | cons kv t ih =>
    obtain ⟨k1, v1⟩ := kv
    intro k v h
    rw [List.lookup] at h
    cases hk : (k == k1) with
    | true =>
      rw [hk] at h
      simp only [] at h
      have hkk : k = k1 := eq_of_beq hk
      have hvv : v1 = v := by
        cases h
        rfl
      subst hkk
      subst hvv
      exact List.mem_cons_self _ _
    | false =>
      rw [hk] at h
      exact List.mem_cons_of_mem _ (ih k v h)

theorem lookup_of_mem_nodup {α β : Type} [BEq α] [LawfulBEq α] :
    ∀ (m : List (α × β)) (k : α) (v : β),
    (m.map Prod.fst).Nodup → (k, v) ∈ m → m.lookup k = some v := by
  intro m
  induction m with
  | nil => intro k v _ h; simp at h
  | cons kv t ih =>
    obtain ⟨k1, v1⟩ := kv
    intro k v hnd hmem
    rw [List.map_cons] at hnd
    obtain ⟨hhead, htail⟩ := List.nodup_cons.mp hnd
    rcases List.mem_cons.mp hmem with heq | hmem'
    · have h1 : k = k1 := congrArg Prod.fst heq
      have h2 : v = v1 := congrArg Prod.snd heq
      subst h1
      subst h2
      simp [List.lookup]
    · rw [List.lookup]
      cases hk : (k == k1) with
      | true =>
        exfalso
        have : k = k1 := eq_of_beq hk
        subst this
        exact hhead (List.mem_map.mpr ⟨(k, v), hmem', rfl⟩)
      | false =>
        exact ih k v htail hmem'

theorem lookupD_ne_default {α β : Type} [BEq α] (m : List (α × β)) (k : α) (d : β)
    (h : lookupD m k d ≠ d) : m.lookup k = some (lookupD m k d) := by
  unfold lookupD at h ⊢
  cases hl : m.lookup k with
  | none =>
    rw [hl] at h
    simp at h
  | some v => rfl

/-- The read depth `coverage[contig][genome_i]` as a total function
(0 when absent). -/
def covAt (coverage : Coverage) (c : String) (p : Nat) : Nat :=
  lookupD (lookupD coverage c []) p 0

/-- The extracted conversion count at one key path (0 when absent). -/
def convAt (convs : Convs) (cv c : String) (p : Nat) : Nat :=
  lookupD (lookupD (lookupD convs cv []) c []) p 0

theorem covAt_lookup (coverage : Coverage) (c : String) (p : Nat)
    (h : covAt coverage c p ≠ 0) :
    ∃ inner, coverage.lookup c = some inner
      ∧ inner.lookup p = some (covAt coverage c p) := by
  cases hl : coverage.lookup c with
  | none =>
    exfalso
    apply h
    unfold covAt lookupD
    rw [hl]
    rfl
  | some inner =>
    refine ⟨inner, rfl, ?_⟩
    cases hp : inner.lookup p with
    | none =>
      exfalso
      apply h
      unfold covAt lookupD
      rw [hl]
      show (inner.lookup p).getD 0 = 0
      rw [hp]
      rfl
    | some d =>
      have hval : covAt coverage c p = d := by
        unfold covAt lookupD
        rw [hl]
        show (inner.lookup p).getD 0 = d
        rw [hp]
        rfl
      rw [hval]

/-! ### Characterizing the merge, flatten and emission phases -/

theorem mergeInnerGo_ok (m1 m2 : List (Nat × Nat)) :
    ∀ ks : List Nat, (∀ k ∈ ks, lookupD m2 k 0 ≠ 0) →
    mergeInnerGo m1 m2 ks
      = .ok (ks.map (fun k =>
          (k, ((lookupD m1 k 0 : ℕ) : ℚ) / ((lookupD m2 k 0 : ℕ) : ℚ)))) := by
  intro ks
  induction ks with
  | nil => intro _; rfl
  | cons k ks ih =>
    intro h
    have hk : lookupD m2 k 0 ≠ 0 := h k (by simp)
    rw [mergeInnerGo, truedivLeaf, if_neg hk, bindOk,
      ih (fun k hk' => h k (by simp [hk'])), bindOk]
    rfl

theorem mergeOuterGo_ok (d1 : ContigMap) (d2 : Coverage) :
    ∀ cs : List String,
    (∀ c ∈ cs, ∀ k ∈ unionKeys (lookupD d1 c []) (lookupD d2 c []),
      lookupD (lookupD d2 c []) k 0 ≠ 0) →
    mergeOuterGo d1 d2 cs
      = .ok (cs.map (fun c => (c,
          (unionKeys (lookupD d1 c []) (lookupD d2 c [])).map (fun k =>
            (k, ((lookupD (lookupD d1 c []) k 0 : ℕ) : ℚ)
              / ((lookupD (lookupD d2 c []) k 0 : ℕ) : ℚ)))))) := by
  intro cs
  induction cs with
  | nil => intro _; rfl
  | cons c cs ih =>
    intro h
    rw [mergeOuterGo,
      mergeInnerGo_ok (lookupD d1 c []) (lookupD d2 c []) _ (h c (by simp)), bindOk,
      ih (fun c' hc' => h c' (by simp [hc'])), bindOk]
    rfl

/-- The value of a successful `merge_dictionaries(..., f=truediv)`. -/
def mergedFractions (m : ContigMap) (coverage : Coverage) :
    List (String × List (Nat × ℚ)) :=
  (unionKeys m coverage).map (fun c => (c,
    (unionKeys (lookupD m c []) (lookupD coverage c [])).map (fun k =>
      (k, ((lookupD (lookupD m c []) k 0 : ℕ) : ℚ)
        / ((lookupD (lookupD coverage c []) k 0 : ℕ) : ℚ)))))

theorem merge_dictionaries_truediv_ok (m : ContigMap) (coverage : Coverage)
    (h : ∀ c, ∀ k ∈ unionKeys (lookupD m c []) (lookupD coverage c []),
      covAt coverage c k ≠ 0) :
    merge_dictionaries_truediv m coverage = .ok (mergedFractions m coverage) :=
  mergeOuterGo_ok m coverage (unionKeys m coverage) (fun c _ => h c)

theorem flatten_dictionary_mem (d : List (String × List (Nat × ℚ)))
    (c : String) (p : Nat) (f : ℚ) :
    ((c, p), f) ∈ flatten_dictionary d ↔ ∃ m, (c, m) ∈ d ∧ (p, f) ∈ m := by
  induction d with
  | nil => simp [flatten_dictionary]
  | cons cm rest ih =>
    obtain ⟨c0, m0⟩ := cm
    rw [flatten_dictionary]
    constructor
    · intro h
      rcases List.mem_append.mp h with h1 | h1
      · obtain ⟨pv, hpv, heq⟩ := List.mem_map.mp h1
        obtain ⟨heq1, heq2⟩ := Prod.mk.injEq _ _ _ _ ▸ heq
        obtain ⟨hc, hp⟩ := Prod.mk.injEq _ _ _ _ ▸ heq1
        refine ⟨m0, by simp [hc.symm], ?_⟩
        have : pv = (p, f) := by
          obtain ⟨a, b⟩ := pv
          simp only [Prod.mk.injEq] at hp heq2 ⊢
          exact ⟨hp ▸ rfl, heq2 ▸ rfl⟩
        exact this ▸ hpv
      · obtain ⟨m, hm, hpf⟩ := ih.mp h1
        exact ⟨m, List.mem_cons_of_mem _ hm, hpf⟩
    · intro ⟨m, hm, hpf⟩
      rcases List.mem_cons.mp hm with heq | hm'
      · obtain ⟨hc, hmm⟩ := Prod.mk.injEq _ _ _ _ ▸ heq.symm
        refine List.mem_append_left _ ?_
        exact List.mem_map.mpr ⟨(p, f), by rw [hmm]; exact hpf, by rw [hc]⟩
      · exact List.mem_append_right _ (ih.mpr ⟨m, hm', hpf⟩)

theorem snpEmitGo_ok (coverage : Coverage) (θ : ℚ) (mc : Nat) (conversion : String) :
    ∀ items : List ((String × Nat) × ℚ),
    (∀ it ∈ items, covAt coverage it.1.1 it.1.2 ≠ 0) →
    ∃ rows, snpEmitGo coverage θ mc conversion items = .ok rows
      ∧ (∀ row ∈ rows, row.conversion = conversion)
      ∧ (∀ c p, (SnpRow.mk c p conversion ∈ rows ↔
          ∃ f, ((c, p), f) ∈ items ∧ mc ≤ covAt coverage c p ∧ θ < f)) := by
  intro items
  induction items with
  | nil =>
    intro _
    refine ⟨[], rfl, by simp, ?_⟩
    intro c p
    simp
  | cons it rest ih =>
    obtain ⟨⟨c0, p0⟩, f0⟩ := it
    intro hcov
    have h0 : covAt coverage c0 p0 ≠ 0 := hcov ((c0, p0), f0) (by simp)
    obtain ⟨inner, hin, hlk⟩ := covAt_lookup coverage c0 p0 h0
    obtain ⟨rows', heq, hcv, hiff⟩ := ih (fun it hit => hcov it (by simp [hit]))
    have e1 : dict_getE coverage c0 = .ok inner := by
      unfold dict_getE
      rw [hin]
    have e2 : dictGetNatE inner p0 = .ok (covAt coverage c0 p0) := by
      unfold dictGetNatE
      rw [hlk]
    refine ⟨if mc ≤ covAt coverage c0 p0 ∧ θ < f0
            then SnpRow.mk c0 p0 conversion :: rows' else rows', ?_, ?_, ?_⟩
    · rw [snpEmitGo, e1, bindOk, e2, bindOk, heq, bindOk]
    · intro row hrow
      by_cases hcond : mc ≤ covAt coverage c0 p0 ∧ θ < f0
      · rw [if_pos hcond] at hrow
        rcases List.mem_cons.mp hrow with rfl | h
        · rfl
        · exact hcv row h
      · rw [if_neg hcond] at hrow
        exact hcv row hrow
    · intro c p
      by_cases hcond : mc ≤ covAt coverage c0 p0 ∧ θ < f0
      · rw [if_pos hcond]
        constructor
        · intro hmem
          rcases List.mem_cons.mp hmem with heq' | h
          · have hc : c = c0 := congrArg SnpRow.contig heq'
            have hp : p = p0 := congrArg SnpRow.genome_i heq'
            subst hc
            subst hp
            exact ⟨f0, by simp, hcond.1, hcond.2⟩
          · obtain ⟨f, hf, h1, h2⟩ := (hiff c p).mp h
            exact ⟨f, List.mem_cons_of_mem _ hf, h1, h2⟩
        · intro ⟨f, hf, h1, h2⟩
          rcases List.mem_cons.mp hf with heq' | h
          · have hc : c = c0 := congrArg (fun x => x.1.1) heq'
            have hp : p = p0 := congrArg (fun x => x.1.2) heq'
            subst hc
            subst hp
            exact List.mem_cons_self _ _
          · exact List.mem_cons_of_mem _ ((hiff c p).mpr ⟨f, h, h1, h2⟩)
      · rw [if_neg hcond]
        constructor
        · intro hmem
          obtain ⟨f, hf, h1, h2⟩ := (hiff c p).mp hmem
          exact ⟨f, List.mem_cons_of_mem _ hf, h1, h2⟩
        · intro ⟨f, hf, h1, h2⟩
          rcases List.mem_cons.mp hf with heq' | h
          · exfalso
            have hc : c = c0 := congrArg (fun x => x.1.1) heq'
            have hp : p = p0 := congrArg (fun x => x.1.2) heq'
            have hff : f = f0 := congrArg Prod.snd heq'
            subst hc
            subst hp
            subst hff
            exact hcond ⟨h1, h2⟩
          · exact (hiff c p).mpr ⟨f, h, h1, h2⟩

theorem detectGo_ok (coverage : Coverage) (θ : ℚ) (mc : Nat) :
    ∀ convs : Convs,
    (∀ e ∈ convs, ∀ c : String,
      ∀ k ∈ unionKeys (lookupD e.2 c []) (lookupD coverage c []),
      covAt coverage c k ≠ 0) →
    ∃ out, detectGo coverage θ mc convs = .ok out
      ∧ ∀ c p cv, (SnpRow.mk c p cv ∈ out ↔
          ∃ m, (cv, m) ∈ convs ∧ ∃ f,
            ((c, p), f) ∈ flatten_dictionary (mergedFractions m coverage)
            ∧ mc ≤ covAt coverage c p ∧ θ < f) := by
  intro convs
  induction convs with
  | nil =>
    intro _
    refine ⟨[], rfl, ?_⟩
    intro c p cv
    simp
  | cons e rest ih =>
    obtain ⟨cv0, m⟩ := e
    intro H
    have Hm : ∀ c : String, ∀ k ∈ unionKeys (lookupD m c []) (lookupD coverage c []),
        covAt coverage c k ≠ 0 := fun c k hk => H (cv0, m) (by simp) c k hk
    have hfr : merge_dictionaries_truediv m coverage = .ok (mergedFractions m coverage) :=
      merge_dictionaries_truediv_ok m coverage Hm
    have hitems : ∀ it ∈ flatten_dictionary (mergedFractions m coverage),
        covAt coverage it.1.1 it.1.2 ≠ 0 := by
      intro it hit
      obtain ⟨⟨c, p⟩, f⟩ := it
      obtain ⟨mm, hmm, hpf⟩ := (flatten_dictionary_mem _ c p f).mp hit
      obtain ⟨a, ha, heqq⟩ := List.mem_map.mp hmm
      injection heqq with hcc hsnd
      subst hcc
      rw [← hsnd] at hpf
      obtain ⟨k, hk, heq2⟩ := List.mem_map.mp hpf
      injection heq2 with hkp hfv
      subst hkp
      exact Hm a k hk
    obtain ⟨rows, hrows, hcv, hiff⟩ := snpEmitGo_ok coverage θ mc cv0 _ hitems
    obtain ⟨more, hmore, hiff2⟩ := ih (fun e he => H e (List.mem_cons_of_mem _ he))
    refine ⟨rows ++ more, ?_, ?_⟩
    · rw [detectGo, hfr, bindOk, hrows, bindOk, hmore, bindOk]
    · intro c p cv
      constructor
      · intro hmem
        rcases List.mem_append.mp hmem with h | h
        · have hcveq : cv = cv0 := hcv _ h
          subst hcveq
          obtain ⟨f, hf, h1, h2⟩ := (hiff c p).mp h
          exact ⟨m, by simp, f, hf, h1, h2⟩
        · obtain ⟨m', hm', rest'⟩ := (hiff2 c p cv).mp h
          exact ⟨m', List.mem_cons_of_mem _ hm', rest'⟩
      · intro ⟨m', hm', f, hf, h1, h2⟩
        rcases List.mem_cons.mp hm' with heq' | hm''
        · have hcveq : cv = cv0 := congrArg Prod.fst heq'
          have hmeq : m' = m := congrArg Prod.snd heq'
          subst hcveq
          subst hmeq
          exact List.mem_append_left _ ((hiff c p).mpr ⟨f, hf, h1, h2⟩)
        · exact List.mem_append_right _ ((hiff2 c p cv).mpr ⟨m', hm'', f, hf, h1, h2⟩)

/-- C4.  Over inputs satisfying the Coverage Table contract (recorded
depths nonzero and duplicate-free keys), with a coverage entry for every
flagged position and a nonnegative threshold, `detect_snps` emits
`(contig, genome_i)` for a conversion type if and only if the extracted
count there is nonzero, the coverage is at least `min_coverage`, and
count/coverage exceeds the threshold strictly. -/
theorem C4_detect_snps_emission_iff
    (convs : Convs) (coverage : Coverage) (θ : ℚ) (mc : Nat)
    (hθ : 0 ≤ θ)
    (hcovnz : ∀ cm ∈ coverage, ∀ pd ∈ cm.2, pd.2 ≠ 0)
    (hcovnodup : ∀ cm ∈ coverage, (cm.2.map Prod.fst).Nodup)
    (hconvcov : ∀ e ∈ convs, ∀ cm ∈ e.2, ∀ pc ∈ cm.2, covAt coverage cm.1 pc.1 ≠ 0)
    (hconvnodup : (convs.map Prod.fst).Nodup) :
    ∃ out, detect_snps convs coverage θ mc = .ok out
      ∧ ∀ cv c p, (SnpRow.mk c p cv ∈ out ↔
          convAt convs cv c p ≠ 0 ∧ mc ≤ covAt coverage c p
          ∧ θ < ((convAt convs cv c p : ℕ) : ℚ) / ((covAt coverage c p : ℕ) : ℚ)) := by
  have H : ∀ e ∈ convs, ∀ c : String,
      ∀ k ∈ unionKeys (lookupD e.2 c []) (lookupD coverage c []),
      covAt coverage c k ≠ 0 := by
    intro e he c k hk
    rcases List.mem_append.mp hk with hleft | hright
    · obtain ⟨pc, hpc, hfst⟩ := List.mem_map.mp hleft
      cases hc : (e.2).lookup c with
      | none =>
        exfalso
        unfold lookupD at hpc
        rw [hc] at hpc
        simp at hpc
      | some cm =>
        have hcm : (c, cm) ∈ e.2 := lookup_mem e.2 c cm hc
        have hpc' : pc ∈ cm := by
          unfold lookupD at hpc
          rw [hc] at hpc
          simpa using hpc
        have hcov := hconvcov e he (c, cm) hcm pc hpc'
        exact hfst ▸ hcov
    · have hright' := (List.mem_filter.mp hright).1
      obtain ⟨pd, hpd, hfst⟩ := List.mem_map.mp hright'
      obtain ⟨p1, p2⟩ := pd
      cases hc : coverage.lookup c with
      | none =>
        exfalso
        unfold lookupD at hpd
        rw [hc] at hpd
        simp at hpd
      | some B =>
        have hB : (c, B) ∈ coverage := lookup_mem coverage c B hc
        have hpd' : (p1, p2) ∈ B := by
          unfold lookupD at hpd
          rw [hc] at hpd
          simpa using hpd
        have hnz := hcovnz (c, B) hB (p1, p2) hpd'
        have hlkp : B.lookup p1 = some p2 :=
          lookup_of_mem_nodup B p1 p2 (hcovnodup (c, B) hB) hpd'
        have hp1 : p1 = k := hfst
        subst hp1
        unfold covAt lookupD
        rw [hc]
        show (B.lookup p1).getD 0 ≠ 0
        rw [hlkp]
        exact hnz
  obtain ⟨out, hout, hiff⟩ := detectGo_ok coverage θ mc convs H
  refine ⟨out, hout, ?_⟩
  intro cv c p
  rw [hiff c p cv]
  constructor
  · rintro ⟨m, hm, f, hf, h1, h2⟩
    have hlkm : convs.lookup cv = some m := lookup_of_mem_nodup convs cv m hconvnodup hm
    have hDm : lookupD convs cv [] = m := by
      unfold lookupD
      rw [hlkm]
      rfl
    obtain ⟨mm, hmm, hpf⟩ := (flatten_dictionary_mem _ c p f).mp hf
    obtain ⟨a, ha, heqq⟩ := List.mem_map.mp hmm
    injection heqq with hcc hsnd
    subst hcc
    rw [← hsnd] at hpf
    obtain ⟨k, hk, heq2⟩ := List.mem_map.mp hpf
    injection heq2 with hkp hfv
    subst hkp
    have hn : convAt convs cv a k = lookupD (lookupD m a []) k 0 := by
      unfold convAt
      rw [hDm]
    have hfeq : f = ((lookupD (lookupD m a []) k 0 : ℕ) : ℚ)
        / ((covAt coverage a k : ℕ) : ℚ) := hfv.symm
    refine ⟨?_, h1, ?_⟩
    · intro h0
      rw [hn] at h0
      rw [h0] at hfeq
      simp at hfeq
      rw [hfeq] at h2
      exact absurd hθ (not_le.mpr h2)
    · rw [hn, ← hfeq]
      exact h2
  · rintro ⟨hne, h1, h2⟩
    have hpA : (lookupD (lookupD convs cv []) c []).lookup p
        = some (convAt convs cv c p) :=
      lookupD_ne_default _ p 0 hne
    have hmemp : (p, convAt convs cv c p) ∈ lookupD (lookupD convs cv []) c [] :=
      lookup_mem _ p _ hpA
    have hpkeys : p ∈ (lookupD (lookupD convs cv []) c []).map Prod.fst :=
      List.mem_map.mpr ⟨_, hmemp, rfl⟩
    have hcne : lookupD (lookupD convs cv []) c [] ≠ [] := by
      intro hemp
      rw [hemp] at hmemp
      simp at hmemp
    have hcA : (lookupD convs cv []).lookup c
        = some (lookupD (lookupD convs cv []) c []) :=
      lookupD_ne_default _ c [] hcne
    have hmemc : (c, lookupD (lookupD convs cv []) c []) ∈ lookupD convs cv [] :=
      lookup_mem _ c _ hcA
    have hAne : lookupD convs cv [] ≠ [] := by
      intro hemp
      rw [hemp] at hmemc
      simp at hmemc
    have hlkA : convs.lookup cv = some (lookupD convs cv []) :=
      lookupD_ne_default _ cv [] hAne
    have hmcv : (cv, lookupD convs cv []) ∈ convs := lookup_mem _ cv _ hlkA
    have hckeys : c ∈ (lookupD convs cv []).map Prod.fst :=
      List.mem_map.mpr ⟨_, hmemc, rfl⟩
    have hcunion : c ∈ unionKeys (lookupD convs cv []) coverage :=
      List.mem_append_left _ hckeys
    have hpunion : p ∈ unionKeys (lookupD (lookupD convs cv []) c [])
        (lookupD coverage c []) := List.mem_append_left _ hpkeys
    refine ⟨lookupD convs cv [], hmcv,
      ((convAt convs cv c p : ℕ) : ℚ) / ((covAt coverage c p : ℕ) : ℚ), ?_, h1, h2⟩
    refine (flatten_dictionary_mem _ c p _).mpr ?_
    refine ⟨(unionKeys (lookupD (lookupD convs cv []) c []) (lookupD coverage c [])).map
      (fun k => (k, ((lookupD (lookupD (lookupD convs cv []) c []) k 0 : ℕ) : ℚ)
        / ((lookupD (lookupD coverage c []) k 0 : ℕ) : ℚ))), ?_, ?_⟩
    · exact List.mem_map.mpr ⟨c, hcunion, rfl⟩
    · exact List.mem_map.mpr ⟨p, hpunion, rfl⟩

/-- Witness for C4 at the claim's boundary inputs: coverage 10, threshold
1/2; an extracted count of 5 (fraction exactly 1/2) is not emitted, a
count of 6 (fraction 3/5) is emitted. -/
theorem C4_detect_snps_emission_iff_witness :
    (∃ out, detect_snps [("TC", [("1", [(100, 5)])])] [("1", [(100, 10)])] (1/2) 1
        = .ok out ∧ SnpRow.mk "1" 100 "TC" ∉ out)
    ∧ (∃ out, detect_snps [("TC", [("1", [(100, 6)])])] [("1", [(100, 10)])] (1/2) 1
        = .ok out ∧ SnpRow.mk "1" 100 "TC" ∈ out) := by
  constructor
  · obtain ⟨out, hout, hiff⟩ := C4_detect_snps_emission_iff
      [("TC", [("1", [(100, 5)])])] [("1", [(100, 10)])] (1/2) 1
      (by norm_num) (by decide) (by decide) (by decide) (by decide)
    refine ⟨out, hout, ?_⟩
    intro hmem
    obtain ⟨h1, h2, h3⟩ := (hiff "TC" "1" 100).mp hmem
    rw [show convAt [("TC", [("1", [(100, 5)])])] "TC" "1" 100 = 5 from by decide,
       show covAt [("1", [(100, 10)])] "1" 100 = 10 from by decide] at h3
    norm_num at h3
  · obtain ⟨out, hout, hiff⟩ := C4_detect_snps_emission_iff
      [("TC", [("1", [(100, 6)])])] [("1", [(100, 10)])] (1/2) 1
      (by norm_num) (by decide) (by decide) (by decide) (by decide)
    refine ⟨out, hout, ?_⟩
    refine (hiff "TC" "1" 100).mpr ⟨by decide, by decide, ?_⟩
    rw [show convAt [("TC", [("1", [(100, 6)])])] "TC" "1" 100 = 6 from by decide,
       show covAt [("1", [(100, 10)])] "1" 100 = 10 from by decide]
    norm_num
